import Mathlib

/-!
Shallow embedding of the gocryptfs core (content-encryption I/O path,
directory-IV store, directory cache, name transform, syscall compat layer)
and proofs about it. Each Go function is translated into an executable Lean
definition; kernel-level effects (openat, read, write, close, dup, unlink,
ftruncate, fallocate) are made explicit either as input parameters giving the
outcome of each syscall or as an event trace the function produces.
-/

namespace gocryptfs

/-- Plaintext block size (cryptfs DefaultPlainBS, spec PlainBS). -/
def PlainBS : Nat := 4096

/-- Ciphertext block size: nonce (12) + payload (4096) + tag (16). -/
def CipherBS : Nat := 4124

/-- Linux NAME_MAX, the maximum length of a filename component. -/
def NAME_MAX : Nat := 255

/-- Linux open(2) flag O_RDONLY. -/
def O_RDONLY : Nat := 0

/-- Linux open(2) flag O_WRONLY. -/
def O_WRONLY : Nat := 1

/-- Linux open(2) flag O_CREAT (Go os.O_CREATE). -/
def O_CREATE : Nat := 64

/-- Linux open(2) flag O_EXCL. -/
def O_EXCL : Nat := 128

/-- Linux open(2) flag O_NOFOLLOW (amd64). -/
def O_NOFOLLOW : Nat := 131072

end gocryptfs

namespace nametransform

/-- DirIVLen is identical to AES block size (dirivcache/diriv source). -/
def DirIVLen : Nat := 16

/-- The filename used to store the directory IV. -/
def DirIVFilename : String := "gocryptfs.diriv"

/-- `fdReadDirIV` reads and verifies the DirIV from an opened
`gocryptfs.diriv` file, faithful to the Go source: it reads into a buffer of
`DirIVLen + 1` bytes (so an over-long file is detected), truncates the buffer
to the `n` bytes actually read, fails unless exactly `DirIVLen` bytes were
read, fails if those bytes are all zero, and otherwise returns them.
`content` is the full byte content of the file; a regular-file read of a
17-byte buffer returns `min 17 content.length` bytes. -/
def fdReadDirIV (content : List Nat) : Except String (List Nat) :=
  let iv := content.take (DirIVLen + 1)
  if iv.length ≠ DirIVLen then
    .error "wrong length"
  else if iv.all (· == 0) then
    .error "diriv is all-zero"
  else
    .ok iv

/-- The flags `ReadDirIVAt` passes to `Openat` when opening
`gocryptfs.diriv` relative to the directory fd:
`syscall.O_RDONLY | syscall.O_NOFOLLOW`. -/
def readDirIVAtOpenFlags : Nat :=
  gocryptfs.O_RDONLY ||| gocryptfs.O_NOFOLLOW

/-- `ReadDirIVAt dirfd` opens `gocryptfs.diriv` relative to `dirfd` (via
`Openat` with `readDirIVAtOpenFlags`) and runs `fdReadDirIV` on it.
The openat outcome is a parameter: `openResult = .error e` when the
`Openat` syscall failed, `.ok content` when it succeeded and the opened
file holds the bytes `content`. -/
def ReadDirIVAt (openResult : Except String (List Nat)) :
    Except String (List Nat) :=
  match openResult with
  | .error e => .error e
  | .ok content => fdReadDirIV content

/-- One observable action of `WriteDirIVAt` against the kernel. -/
inductive DirIVEvent where
  /-- `Openat(dirfd, "gocryptfs.diriv", flags, mode)` -/
  | openat (flags mode : Nat)
  /-- write of `n` bytes to the new file -/
  | write (n : Nat)
  /-- close of the new file's fd -/
  | close
  /-- `Unlinkat(dirfd, "gocryptfs.diriv", 0)` -/
  | unlinkat
  deriving DecidableEq, Repr

/-- `WriteDirIVAt dirfd` translated from the Go source. It generates
`DirIVLen` random bytes, opens `gocryptfs.diriv` with
`os.O_WRONLY|os.O_CREATE|os.O_EXCL` and mode `0400` (256 decimal), writes
the bytes, and closes the file; on a write error it closes and unlinks the
incomplete file, on a close error it unlinks it. The outcomes of the
openat, write and close syscalls are parameters (`some e` = failed with
error `e`); the function returns the error it propagates (or `none` on
success) together with the ordered list of kernel actions it performed. -/
def WriteDirIVAt (openErr writeErr closeErr : Option Nat) :
    Option Nat × List DirIVEvent :=
  let openEv := DirIVEvent.openat
    (gocryptfs.O_WRONLY ||| gocryptfs.O_CREATE ||| gocryptfs.O_EXCL) 256
  match openErr with
  | some e => (some e, [openEv])
  | none =>
    match writeErr with
    | some e =>
      (some e, [openEv, .write DirIVLen, .close, .unlinkat])
    | none =>
      match closeErr with
      | some e => (some e, [openEv, .write DirIVLen, .close, .unlinkat])
      | none => (none, [openEv, .write DirIVLen, .close])

/-- The `NameTransform` struct, keeping only what `EncryptAndHashName`
touches. `EncryptName` and `HashLongName` live in files outside this
repository snapshot, so they are abstract function-valued fields here;
`longNames` is the feature flag enabling long-name hashing. -/
structure NameTransform where
  encryptName : String → List Nat → String
  hashLongName : String → String
  longNames : Bool

/-- `EncryptAndHashName` encrypts `name` and hashes it to a longname if it
is too long, faithful to the Go source: hash exactly when `longNames` is
enabled and the encrypted name is longer than `NAME_MAX`. -/
def NameTransform.EncryptAndHashName (be : NameTransform) (name : String)
    (iv : List Nat) : String :=
  let cName := be.encryptName name iv
  if be.longNames && decide (cName.length > gocryptfs.NAME_MAX) then
    be.hashLongName cName
  else
    cName

end nametransform

namespace syscallcompat

/-- Outcome of one `fallocate(fd, FALLOC_FL_KEEP_SIZE, off, len)` call. -/
inductive FallocResult where
  /-- the syscall succeeded (err == nil) -/
  | ok
  /-- the syscall was interrupted by a signal -/
  | eintr
  /-- the filesystem does not support fallocate -/
  | eopnotsupp
  /-- any other errno `e` -/
  | err (e : Nat)
  deriving DecidableEq, Repr

/-- Result of `EnospcPrealloc`: the error returned to the caller (`none` on
success), the `preallocWarn` once-flag after the call, and how many warnings
this call printed. -/
structure PreallocOutcome where
  result : Option Nat
  warnedAfter : Bool
  warningsPrinted : Nat
  deriving DecidableEq, Repr

/-- `EnospcPrealloc` translated from the Go source. The retry loop calls
`fallocate` repeatedly; `results` is the sequence of outcomes the kernel
produces for the successive calls, and `warned` the state of the
process-wide `preallocWarn` `sync.Once` before the call. `EINTR` loops;
`EOPNOTSUPP` fires the once-warning and returns success; anything else
(success included) is returned as-is. `none` means the outcome list was
exhausted while the loop still wanted to retry. -/
def EnospcPrealloc (results : List FallocResult) (warned : Bool) :
    Option PreallocOutcome :=
  match results with
  | [] => none
  | r :: rest =>
    match r with
    | .eintr => EnospcPrealloc rest warned
    | .eopnotsupp => some ⟨none, true, if warned then 0 else 1⟩
    | .ok => some ⟨none, warned, 0⟩
    | .err e => some ⟨some e, warned, 0⟩

end syscallcompat

namespace pathfs

/-- FUSE status codes relevant to the file I/O path: `ok` is fuse.OK and
`ioError` is fuse.EIO. -/
inductive Status where
  | ok
  | ioError
  deriving DecidableEq, Repr

/-- One ciphertext block of the backing file, viewed through the AEAD:
`payload` is the plaintext it decrypts to (at most `PlainBS` bytes) and
`good` is whether its authentication tag verifies. -/
structure CtBlock where
  payload : List Nat
  good : Bool
  deriving DecidableEq, Repr

/-- Modelled from the spec: `cryptfs.DecryptBlocks` (the cryptfs package is
not part of this repository snapshot). Per the spec, sequence decoding
authenticates each block in order and "on failure it reports the index of
the first bad block and returns no plaintext from that block onward": the
result is the concatenated plaintext of the good prefix together with a
success flag. -/
def DecryptBlocks : List CtBlock → List Nat × Bool
  | [] => ([], true)
  | b :: rest =>
    if b.good then
      let r := DecryptBlocks rest
      (b.payload ++ r.1, r.2)
    else
      ([], false)

/-- Modelled from the spec: the ciphertext blocks covered by
`cryptfs.CiphertextRange(off, length)` and actually present in the backing
file, i.e. blocks `off / PlainBS` through `(off + length - 1) / PlainBS`,
clamped to the end of the file (the positioned read returns only the bytes
that exist). -/
def coveredBlocks (file : List CtBlock) (off length : Nat) : List CtBlock :=
  let firstBlock := off / gocryptfs.PlainBS
  let lastBlockPlus1 :=
    (off + length + gocryptfs.PlainBS - 1) / gocryptfs.PlainBS
  (file.drop firstBlock).take (lastBlockPlus1 - firstBlock)

/-- `doRead(off, length)` of pathfs_frontend/file.go: read the covering
ciphertext range, decrypt it (any authentication failure makes the whole
call return `([], ioError)`, the Go `return nil, fuse.EIO`), then crop the
decrypted plaintext exactly as the source does: with
`lenHave = len(plaintext)` and `lenWant = skip + length`, return
`plaintext[skip : skip+length]` when `lenHave > lenWant`,
`plaintext[skip : lenHave]` when `lenHave > skip`, and the empty slice
otherwise (file smaller than the requested offset). -/
def doRead (file : List CtBlock) (off length : Nat) : List Nat × Status :=
  let skip := off % gocryptfs.PlainBS
  let dec := DecryptBlocks (coveredBlocks file off length)
  if dec.2 then
    let plaintext := dec.1
    let lenHave := plaintext.length
    let lenWant := skip + length
    if lenHave > lenWant then
      ((plaintext.drop skip).take length, .ok)
    else if lenHave > skip then
      (plaintext.drop skip, .ok)
    else
      ([], .ok)
  else
    ([], .ioError)

/-- The plaintext content of a backing file, block payloads concatenated. -/
def fileContent (file : List CtBlock) : List Nat :=
  (file.map CtBlock.payload).flatten

/-- The plaintext size of a backing file. -/
def plainSize (file : List CtBlock) : Nat :=
  (fileContent file).length

/-- Well-formed block sequence: every block except the last carries exactly
`PlainBS` plaintext bytes, the last carries at most `PlainBS`. -/
inductive WfBlocks : List CtBlock → Prop
  | nil : WfBlocks []
  | last (b : CtBlock) (h : b.payload.length ≤ gocryptfs.PlainBS) :
      WfBlocks [b]
  | cons (b : CtBlock) (rest : List CtBlock)
      (h : b.payload.length = gocryptfs.PlainBS) (hne : rest ≠ [])
      (hr : WfBlocks rest) : WfBlocks (b :: rest)

/-- Observable backing-file operation performed by `Truncate`. -/
inductive TruncEvent where
  /-- `doRead(off, len)` of the plaintext range -/
  | read (off len : Nat)
  /-- `syscall.Ftruncate(fd, size)` of the ciphertext file -/
  | ftruncate (size : Nat)
  /-- `doWrite` of `len` plaintext bytes at plaintext offset `off` -/
  | write (off len : Nat)
  deriving DecidableEq, Repr

/-- The shrink branch of `Truncate(newSize)` (pathfs_frontend/file.go,
lines 272-299), taken when `newSize` is not larger than the current
plaintext size: compute `blockNo = BlockNoPlainOff(newSize) =
newSize / PlainBS`, `cipherOff = blockNo * CipherBS`,
`plainOff = blockNo * PlainBS`, `lastBlockLen = newSize - plainOff`; if
`lastBlockLen > 0` first `doRead(plainOff, lastBlockLen)`, then
`Ftruncate(cipherOff)`, then (if `lastBlockLen > 0`) `doWrite` of the saved
data at `plainOff`. The result is the ordered trace of backing-file
operations on the success path. -/
def truncateShrinkTrace (newSize : Nat) : List TruncEvent :=
  let blockNo := newSize / gocryptfs.PlainBS
  let cipherOff := blockNo * gocryptfs.CipherBS
  let plainOff := blockNo * gocryptfs.PlainBS
  let lastBlockLen := newSize - plainOff
  (if lastBlockLen > 0 then [TruncEvent.read plainOff lastBlockLen] else [])
    ++ [TruncEvent.ftruncate cipherOff]
    ++ (if lastBlockLen > 0 then [TruncEvent.write plainOff lastBlockLen]
        else [])

/-- Helper for stating the ordering property: is the event a write? -/
def TruncEvent.isWriteEv : TruncEvent → Bool
  | .write _ _ => true
  | _ => false

/-- Helper for stating the ordering property: is the event an ftruncate? -/
def TruncEvent.isFtruncateEv : TruncEvent → Bool
  | .ftruncate _ => true
  | _ => false

/-- Does some write event occur strictly before the first ftruncate event
of the trace? -/
def writeOccursBeforeFtruncate (tr : List TruncEvent) : Bool :=
  (tr.takeWhile (fun e => !e.isFtruncateEv)).any TruncEvent.isWriteEv

end pathfs

namespace fusefrontend

/-- Model of the kernel file-descriptor table: `ino fd` is the inode the
open descriptor `fd` refers to (`none` when `fd` is not open) and `next`
is the descriptor number the next successful `Dup` hands out. -/
structure FdTable where
  ino : Int → Option Nat
  next : Int

/-- `syscall.Dup(fd)`: hand out the descriptor `next`, referring to the
same inode as `fd`. -/
def FdTable.dup (t : FdTable) (fd : Int) : Int × FdTable :=
  (t.next,
   { ino := fun g => if g = t.next then t.ino fd else t.ino g,
     next := t.next + 1 })

/-- `syscall.Close(fd)`. -/
def FdTable.close (t : FdTable) (fd : Int) : FdTable :=
  { t with ino := fun g => if g = fd then none else t.ino g }

/-- Well-formed table: descriptors at or above `next` are unused, and
`next` is at least 3 — the process holds descriptors 0, 1 and 2 open to
scratch files (package ensurefds012), so `Dup` never hands them out. -/
def FdTable.Wf (t : FdTable) : Prop :=
  (∀ g : Int, t.next ≤ g → t.ino g = none) ∧ 3 ≤ t.next

/-- Number of entries in the dirCache. -/
def dirCacheSize : Nat := 3

/-- A directory-cache slot: relative plaintext path, fd to the directory,
and the content of `gocryptfs.diriv` in that directory (the Go nil slice
is modelled as `[]`). -/
structure dirCacheEntryStruct where
  dirRelPath : String
  fd : Int
  iv : List Nat
  deriving DecidableEq, Repr

/-- The zero value of a slot (a Go array starts zeroed). -/
def zeroEntry : dirCacheEntryStruct := ⟨"", 0, []⟩

/-- The state of a slot after `Clear`. -/
def clearedEntry : dirCacheEntryStruct := ⟨"", -1, []⟩

/-- `dirCacheEntryStruct.Clear`: close the fd only when it is positive (an
earlier clear may have set it to -1, or it is still the zero value 0),
then reset the slot to `(fd = -1, path = "", iv = nil)`. Returns the new
slot, the table after the close, and the list of descriptors this call
closed. -/
def dirCacheEntryStruct.Clear (e : dirCacheEntryStruct) (t : FdTable) :
    dirCacheEntryStruct × FdTable × List Int :=
  if e.fd > 0 then (clearedEntry, t.close e.fd, [e.fd])
  else (clearedEntry, t, [])

/-- Clear every slot of a list in order, accumulating the closed fds. -/
def clearEntries : List dirCacheEntryStruct → FdTable →
    List dirCacheEntryStruct × FdTable × List Int
  | [], t => ([], t, [])
  | e :: rest, t =>
    let r := e.Clear t
    let rr := clearEntries rest r.2.1
    (r.1 :: rr.1, rr.2.1, r.2.2 ++ rr.2.2)

/-- The dirCache: `dirCacheSize` slots plus the round-robin index of the
slot the next `Store` will use. -/
structure dirCacheStruct where
  entries : List dirCacheEntryStruct
  nextIndex : Nat
  deriving DecidableEq, Repr

/-- `dirCacheStruct.Clear` clears the cache contents (all slots). -/
def dirCacheStruct.Clear (d : dirCacheStruct) (t : FdTable) :
    dirCacheStruct × FdTable × List Int :=
  let r := clearEntries d.entries t
  (⟨r.1, d.nextIndex⟩, r.2.1, r.2.2)

/-- `dirCacheStruct.Store(dirRelPath, fd, iv)` translated from the source:
`log.Panicf` (modelled as `none`) when `fd <= 0` or the IV is not
`DirIVLen` bytes; otherwise pick the round-robin slot, advance
`nextIndex`, `Clear` the old slot (closing its fd), `Dup` the caller's fd
and store `(dirRelPath, dup, iv)` in the slot. -/
def dirCacheStruct.Store (d : dirCacheStruct) (t : FdTable)
    (dirRelPath : String) (fd : Int) (iv : List Nat) :
    Option (dirCacheStruct × FdTable) :=
  if fd ≤ 0 ∨ iv.length ≠ nametransform.DirIVLen then
    none
  else
    let i := d.nextIndex
    let nextIndex := (d.nextIndex + 1) % dirCacheSize
    let e := d.entries.getD i zeroEntry
    let r := e.Clear t
    let dup := r.2.1.dup fd
    some (⟨d.entries.set i ⟨dirRelPath, dup.1, iv⟩, nextIndex⟩, dup.2)

/-- The scan loop of `Lookup`: the first slot with a positive fd and the
wanted path, if any. -/
def findHit : List dirCacheEntryStruct → String →
    Option dirCacheEntryStruct
  | [], _ => none
  | e :: rest, p =>
    if e.fd > 0 ∧ e.dirRelPath = p then some e else findHit rest p

/-- `dirCacheStruct.Lookup(dirRelPath)` translated from the source: scan
the slots; with no hit the named return `fd` stays 0 and the call returns
the miss sentinel `(-1, nil)`. On a hit, `Dup` the slot's fd; a dup result
of 0 is indistinguishable from a miss (`if fd == 0`) and returns the
sentinel; then the sanity check `log.Panicf`s (modelled as `none`) when
the fd is not positive or the IV is not `DirIVLen` bytes; otherwise the
dup'd fd and the stored IV are returned. The table after any `Dup` is
returned alongside. -/
def dirCacheStruct.Lookup (d : dirCacheStruct) (t : FdTable)
    (dirRelPath : String) : Option ((Int × List Nat) × FdTable) :=
  match findHit d.entries dirRelPath with
  | none => some ((-1, []), t)
  | some e =>
    let dup := t.dup e.fd
    if dup.1 = 0 then some ((-1, []), dup.2)
    else if dup.1 ≤ 0 ∨ e.iv.length ≠ nametransform.DirIVLen then none
    else some ((dup.1, e.iv), dup.2)

/-- Slot invariant: a slot either holds no live descriptor (`fd ≤ 0`, i.e.
the zero value 0 or the cleared value -1) or holds a descriptor at least 3
together with a `DirIVLen`-byte IV. -/
def SlotsOk (d : dirCacheStruct) : Prop :=
  ∀ e ∈ d.entries, e.fd ≤ 0 ∨
    (3 ≤ e.fd ∧ e.iv.length = nametransform.DirIVLen)

/-- A concrete run against the cache: starting from an empty cache and a
table where descriptor 3 refers to inode 100 and descriptor 4 to inode
200, store path "a" with fd 3 and IV `replicate 16 1`, then store path
"a" again with fd 4 and IV `replicate 16 2`, then look up "a". -/
def doubleStoreRun : Option ((Int × List Nat) × FdTable) :=
  match dirCacheStruct.Store ⟨List.replicate 3 zeroEntry, 0⟩
      ⟨fun g => if g = 3 then some 100 else if g = 4 then some 200
        else none, 5⟩
      "a" 3 (List.replicate 16 1) with
  | none => none
  | some s1 =>
    match dirCacheStruct.Store s1.1 s1.2 "a" 4 (List.replicate 16 2) with
    | none => none
    | some s2 => dirCacheStruct.Lookup s2.1 s2.2 "a"

end fusefrontend

namespace syscallcompat

/-- The `preallocWarn` once-semantics: a call never prints more than one
warning, never prints if the flag is already set, and sets the flag
whenever it prints. -/
lemma enospcPrealloc_once (results : List FallocResult) : ∀ (w : Bool)
    (o : PreallocOutcome), EnospcPrealloc results w = some o →
    (w = true → o.warningsPrinted = 0) ∧ o.warningsPrinted ≤ 1 ∧
    (o.warningsPrinted = 1 → o.warnedAfter = true) := by
  induction results with
  | nil => intro w o h; simp [EnospcPrealloc] at h
  | cons r rest ih =>
    intro w o h
    cases r with
    | eintr => exact ih w o h
    | eopnotsupp =>
      simp only [EnospcPrealloc, Option.some.injEq] at h
      subst h
      cases w <;> simp
    | ok =>
      simp only [EnospcPrealloc, Option.some.injEq] at h
      subst h
      simp
    | err e =>
      simp only [EnospcPrealloc, Option.some.injEq] at h
      subst h
      simp

end syscallcompat

/-- C8: the space pre-reservation retries `fallocate(KEEP_SIZE)` on
`EINTR`; on `EOPNOTSUPP` it warns (at most once per process, via the
`preallocWarn` once-flag) and returns success; a plain success and every
other error are returned to the caller unchanged. -/
theorem enospcPrealloc_spec :
    (∀ (rest : List syscallcompat.FallocResult) (w : Bool),
      syscallcompat.EnospcPrealloc (.eintr :: rest) w =
        syscallcompat.EnospcPrealloc rest w) ∧
    (∀ (rest : List syscallcompat.FallocResult) (w : Bool),
      syscallcompat.EnospcPrealloc (.eopnotsupp :: rest) w =
        some ⟨none, true, if w then 0 else 1⟩) ∧
    (∀ (rest : List syscallcompat.FallocResult) (w : Bool) (e : Nat),
      syscallcompat.EnospcPrealloc (.err e :: rest) w =
        some ⟨some e, w, 0⟩) ∧
    (∀ (rest : List syscallcompat.FallocResult) (w : Bool),
      syscallcompat.EnospcPrealloc (.ok :: rest) w = some ⟨none, w, 0⟩) ∧
    (∀ (results : List syscallcompat.FallocResult) (w : Bool)
        (o : syscallcompat.PreallocOutcome),
      syscallcompat.EnospcPrealloc results w = some o →
      (w = true → o.warningsPrinted = 0) ∧ o.warningsPrinted ≤ 1 ∧
      (o.warningsPrinted = 1 → o.warnedAfter = true)) :=
  ⟨fun _ _ => rfl, fun _ _ => rfl, fun _ _ _ => rfl, fun _ _ => rfl,
   syscallcompat.enospcPrealloc_once⟩

/-- Witness for C8: a call that hits `EINTR` then `EOPNOTSUPP` with the
once-flag still clear prints exactly one warning and sets the flag. -/
theorem enospcPrealloc_spec_witness :
    syscallcompat.EnospcPrealloc [.eintr, .eopnotsupp] false =
      some ⟨none, true, 1⟩ ∧
    ((false = true → (1 : Nat) = 0) ∧ (1 : Nat) ≤ 1 ∧
      ((1 : Nat) = 1 → true = true)) :=
  ⟨rfl, enospcPrealloc_spec.2.2.2.2 [.eintr, .eopnotsupp] false
    ⟨none, true, 1⟩ rfl⟩

/-- C9: `WriteDirIVAt` creates `gocryptfs.diriv` with
`O_WRONLY|O_CREAT|O_EXCL` and mode 0400 (= 256), writes the 16 random
bytes, and on a write or close error attempts to unlink the incomplete
file and returns that error; on success nothing is unlinked. -/
theorem writeDirIVAt_spec (openErr writeErr closeErr : Option Nat) :
    ((nametransform.WriteDirIVAt openErr writeErr closeErr).2.head? =
      some (.openat
        (gocryptfs.O_WRONLY ||| gocryptfs.O_CREATE ||| gocryptfs.O_EXCL)
        256)) ∧
    (openErr = none →
      nametransform.DirIVEvent.write nametransform.DirIVLen ∈
        (nametransform.WriteDirIVAt openErr writeErr closeErr).2) ∧
    (∀ e, openErr = none → writeErr = some e →
      (nametransform.WriteDirIVAt openErr writeErr closeErr).1 = some e ∧
      nametransform.DirIVEvent.unlinkat ∈
        (nametransform.WriteDirIVAt openErr writeErr closeErr).2) ∧
    (∀ e, openErr = none → writeErr = none → closeErr = some e →
      (nametransform.WriteDirIVAt openErr writeErr closeErr).1 = some e ∧
      nametransform.DirIVEvent.unlinkat ∈
        (nametransform.WriteDirIVAt openErr writeErr closeErr).2) ∧
    (openErr = none → writeErr = none → closeErr = none →
      (nametransform.WriteDirIVAt openErr writeErr closeErr).1 = none ∧
      nametransform.DirIVEvent.unlinkat ∉
        (nametransform.WriteDirIVAt openErr writeErr closeErr).2) := by
  cases openErr <;> cases writeErr <;> cases closeErr <;>
    simp [nametransform.WriteDirIVAt]

/-- Witness for C9: with a failing write (errno 28, ENOSPC) the error is
returned and the incomplete file is unlinked. -/
theorem writeDirIVAt_spec_witness :
    (nametransform.WriteDirIVAt none (some 28) none).1 = some 28 ∧
    nametransform.DirIVEvent.unlinkat ∈
      (nametransform.WriteDirIVAt none (some 28) none).2 :=
  (writeDirIVAt_spec none (some 28) none).2.2.1 28 rfl rfl

/-- C3: reading the directory IV opens `gocryptfs.diriv` with
`O_NOFOLLOW` (relative to the directory fd), reads up to 17 bytes, fails
unless exactly 16 bytes were read and they are not all zero, and on
success returns exactly those 16 bytes; an open error is propagated. -/
theorem readDirIVAt_spec (content : List Nat) :
    (nametransform.readDirIVAtOpenFlags &&& gocryptfs.O_NOFOLLOW =
      gocryptfs.O_NOFOLLOW) ∧
    (∀ e, nametransform.ReadDirIVAt (.error e) = .error e) ∧
    (∀ iv, nametransform.ReadDirIVAt (.ok content) = .ok iv →
      iv = content ∧ content.length = nametransform.DirIVLen ∧
      iv.all (· == 0) = false) ∧
    (content.length = nametransform.DirIVLen →
      content.all (· == 0) = false →
      nametransform.ReadDirIVAt (.ok content) = .ok content) := by
  refine ⟨by decide, fun e => rfl, ?_, ?_⟩
  · intro iv h
    simp only [nametransform.ReadDirIVAt, nametransform.fdReadDirIV] at h
    split at h
    · exact absurd h (by simp)
    · next h1 =>
      simp only [ne_eq, not_not] at h1
      split at h
      · exact absurd h (by simp)
      · next h2 =>
        have h3 : content.take (nametransform.DirIVLen + 1) = iv :=
          Except.ok.inj h
        have hlen : content.length = nametransform.DirIVLen := by
          rw [List.length_take] at h1
          omega
        have htake :
            content.take (nametransform.DirIVLen + 1) = content :=
          List.take_of_length_le (by omega)
        rw [htake] at h3 h2
        subst h3
        exact ⟨rfl, hlen, Bool.eq_false_iff.mpr (fun hc => h2 hc)⟩
  · intro hlen hz
    have htake : content.take (nametransform.DirIVLen + 1) = content :=
      List.take_of_length_le (by omega)
    simp [nametransform.ReadDirIVAt, nametransform.fdReadDirIV, htake,
      hlen, hz]

/-- Witness for C3: a 16-byte non-zero IV is read back verbatim. -/
theorem readDirIVAt_spec_witness :
    nametransform.ReadDirIVAt (.ok (List.replicate 16 7)) =
      .ok (List.replicate 16 7) :=
  (readDirIVAt_spec (List.replicate 16 7)).2.2.2 (by decide) (by decide)

/-- Counterexample for C1: at `newSize = 5` (a shrink with non-zero
residual, e.g. from a 10-byte file) the shrink branch reads the residual,
then ftruncates the backing file to the new last block's ciphertext start
(offset 0, not the new ciphertext end), and only then writes the truncated
plaintext back: no write-back happens before the ftruncate, contrary to
the claimed ordering. -/
theorem truncateShrink_order_counterexample :
    pathfs.truncateShrinkTrace 5 =
      [.read 0 5, .ftruncate 0, .write 0 5] ∧
    pathfs.writeOccursBeforeFtruncate (pathfs.truncateShrinkTrace 5) =
      false := by
  constructor <;> rfl

/-- C1 (amended): for a shrink to `newSize` with non-zero residual
(`newSize % PlainBS ≠ 0`), Truncate first reads the old last block's
truncated plaintext, then ftruncates the backing file to the start of the
new last block's ciphertext (`(newSize / PlainBS) * CipherBS`, a block
boundary), and then writes the truncated plaintext back, which re-extends
the backing file to the new ciphertext end. -/
theorem truncateShrinkTrace_spec (newSize : Nat)
    (h : newSize % gocryptfs.PlainBS ≠ 0) :
    pathfs.truncateShrinkTrace newSize =
      [.read ((newSize / gocryptfs.PlainBS) * gocryptfs.PlainBS)
          (newSize % gocryptfs.PlainBS),
       .ftruncate ((newSize / gocryptfs.PlainBS) * gocryptfs.CipherBS),
       .write ((newSize / gocryptfs.PlainBS) * gocryptfs.PlainBS)
          (newSize % gocryptfs.PlainBS)] := by
  have hmod := Nat.div_add_mod newSize gocryptfs.PlainBS
  rw [Nat.mul_comm] at hmod
  have hlast : newSize - newSize / gocryptfs.PlainBS * gocryptfs.PlainBS =
      newSize % gocryptfs.PlainBS := by omega
  have hpos : 0 < newSize % gocryptfs.PlainBS := Nat.pos_of_ne_zero h
  simp [pathfs.truncateShrinkTrace, hlast, hpos]

/-- Witness for C1 (amended): the concrete shrink to 5 bytes. -/
theorem truncateShrinkTrace_spec_witness :
    5 % gocryptfs.PlainBS ≠ 0 ∧
    pathfs.truncateShrinkTrace 5 =
      [.read (5 / gocryptfs.PlainBS * gocryptfs.PlainBS)
          (5 % gocryptfs.PlainBS),
       .ftruncate (5 / gocryptfs.PlainBS * gocryptfs.CipherBS),
       .write (5 / gocryptfs.PlainBS * gocryptfs.PlainBS)
          (5 % gocryptfs.PlainBS)] :=
  ⟨by decide, truncateShrinkTrace_spec 5 (by decide)⟩

set_option maxRecDepth 4000 in
/-- Counterexample for C6: with long-name support disabled
(`longNames = false`), an encrypted name longer than `NAME_MAX` is
returned as-is instead of the long-name stand-in produced by
`HashLongName`. -/
theorem encryptAndHashName_counterexample :
    nametransform.NameTransform.EncryptAndHashName
        ⟨fun _ _ => String.mk (List.replicate 256 'a'), fun _ => "H",
          false⟩ "x" [] =
      String.mk (List.replicate 256 'a') ∧
    gocryptfs.NAME_MAX < (String.mk (List.replicate 256 'a')).length ∧
    String.mk (List.replicate 256 'a') ≠ "H" := by
  refine ⟨rfl, by decide, by decide⟩

/-- C6 (amended): when long-name support is enabled (`longNames = true`),
`EncryptAndHashName` returns the encrypted name whenever its length is at
most `NAME_MAX`, and the long-name stand-in `HashLongName` of the
ciphertext name whenever it exceeds `NAME_MAX`. -/
theorem encryptAndHashName_spec (be : nametransform.NameTransform)
    (name : String) (iv : List Nat) (hln : be.longNames = true) :
    ((be.encryptName name iv).length ≤ gocryptfs.NAME_MAX →
      be.EncryptAndHashName name iv = be.encryptName name iv) ∧
    (gocryptfs.NAME_MAX < (be.encryptName name iv).length →
      be.EncryptAndHashName name iv =
        be.hashLongName (be.encryptName name iv)) := by
  constructor <;> intro h
  · have hnot : ¬gocryptfs.NAME_MAX < (be.encryptName name iv).length :=
      Nat.not_lt.mpr h
    simp [nametransform.NameTransform.EncryptAndHashName, hln, hnot]
  · simp [nametransform.NameTransform.EncryptAndHashName, hln, h]

/-- Witness for C6 (amended): an identity name encryption with long names
enabled leaves a short name unchanged. -/
theorem encryptAndHashName_spec_witness :
    nametransform.NameTransform.EncryptAndHashName
        ⟨fun n _ => n, fun _ => "H", true⟩ "abc" [] = "abc" :=
  (encryptAndHashName_spec ⟨fun n _ => n, fun _ => "H", true⟩ "abc" []
    rfl).1 (by decide)

namespace fusefrontend

/-- Clearing a list of slots resets every slot to the cleared state and
closes exactly the positive descriptors, in slot order. -/
lemma clearEntries_spec (l : List dirCacheEntryStruct) : ∀ t : FdTable,
    (clearEntries l t).1 = List.replicate l.length clearedEntry ∧
    (clearEntries l t).2.2 =
      (l.map (·.fd)).filter (fun f => decide (0 < f)) := by
  induction l with
  | nil => intro t; exact ⟨rfl, rfl⟩
  | cons e rest ih =>
    intro t
    by_cases h : e.fd > 0 <;>
      simp [clearEntries, dirCacheEntryStruct.Clear, h,
        List.replicate_succ, List.filter_cons, (ih _).1, (ih _).2]

end fusefrontend

/-- C10: after `Clear` every cache slot is in the empty state
(`fd = -1`, empty path, nil IV); the first `Clear` closes exactly the
positive (stored) descriptors, each once, and a second `Clear` closes
nothing, so repeated `Clear` calls close each stored descriptor exactly
once. -/
theorem dirCache_clear_spec (d : fusefrontend.dirCacheStruct)
    (t : fusefrontend.FdTable) :
    (d.Clear t).1.entries =
      List.replicate d.entries.length fusefrontend.clearedEntry ∧
    (d.Clear t).2.2 =
      (d.entries.map (·.fd)).filter (fun f => decide (0 < f)) ∧
    ((d.Clear t).1.Clear (d.Clear t).2.1).2.2 = [] := by
  obtain ⟨h1, h2⟩ := fusefrontend.clearEntries_spec d.entries t
  refine ⟨h1, h2, ?_⟩
  have h3 : (d.Clear t).1.entries =
      List.replicate d.entries.length fusefrontend.clearedEntry := h1
  have h5 : ((d.Clear t).1.Clear (d.Clear t).2.1).2.2 =
      (fusefrontend.clearEntries (d.Clear t).1.entries
        (d.Clear t).2.1).2.2 := rfl
  rw [h5, (fusefrontend.clearEntries_spec _ _).2, h3, List.map_replicate,
    List.filter_replicate_of_neg (by decide)]

namespace pathfs

/-- Decrypting a sequence of blocks that all authenticate yields their
concatenated payloads and success. -/
lemma decryptBlocks_all_good (l : List CtBlock)
    (h : ∀ b ∈ l, b.good = true) :
    DecryptBlocks l = (fileContent l, true) := by
  induction l with
  | nil => rfl
  | cons b rest ih =>
    have hb : b.good = true := h b (by simp)
    have hr := ih (fun x hx => h x (by simp [hx]))
    simp [DecryptBlocks, hb, hr, fileContent]

/-- Decrypting a sequence containing a bad block reports failure. -/
lemma decryptBlocks_bad (l : List CtBlock)
    (h : ∃ b ∈ l, b.good = false) : (DecryptBlocks l).2 = false := by
  induction l with
  | nil => simp at h
  | cons b rest ih =>
    by_cases hb : b.good = true
    · rcases h with ⟨x, hx, hxg⟩
      rcases List.mem_cons.mp hx with rfl | hx'
      · rw [hb] at hxg; cases hxg
      · simp [DecryptBlocks, hb, ih ⟨x, hx', hxg⟩]
    · simp [DecryptBlocks, hb]

end pathfs

/-- C2: a read whose covering ciphertext range contains a block that
fails AEAD authentication returns the `ioError` status and no plaintext
bytes at all - in particular nothing from the first failing block
onward. -/
theorem doRead_auth_failure (file : List pathfs.CtBlock)
    (off length : Nat)
    (hbad : ∃ b ∈ pathfs.coveredBlocks file off length, b.good = false) :
    pathfs.doRead file off length = ([], .ioError) := by
  have h := pathfs.decryptBlocks_bad _ hbad
  simp [pathfs.doRead, h]

/-- Witness for C2: a one-block file whose block fails authentication
makes a read of its first byte fail with `ioError` and return nothing. -/
theorem doRead_auth_failure_witness :
    (∃ b ∈ pathfs.coveredBlocks [⟨[7], false⟩] 0 1, b.good = false) ∧
    pathfs.doRead [⟨[7], false⟩] 0 1 = ([], .ioError) :=
  ⟨⟨⟨[7], false⟩, by decide, rfl⟩,
   doRead_auth_failure [⟨[7], false⟩] 0 1
     ⟨⟨[7], false⟩, by decide, rfl⟩⟩


namespace pathfs

/-- Unfolding lemma: the content of a cons. -/
lemma fileContent_cons (b : CtBlock) (l : List CtBlock) :
    fileContent (b :: l) = b.payload ++ fileContent l := by
  simp [fileContent]

/-- The content of a concatenation. -/
lemma fileContent_append (a b : List CtBlock) :
    fileContent (a ++ b) = fileContent a ++ fileContent b := by
  simp [fileContent]

/-- A well-formed file holds exactly `PlainBS` bytes in every block but
the last, so its size is more than `(blocks - 1) * PlainBS`. -/
lemma length_pred_mul_le (file : List CtBlock) (hw : WfBlocks file) :
    (file.length - 1) * gocryptfs.PlainBS ≤ plainSize file := by
  induction hw with
  | nil => simp [plainSize, fileContent]
  | last b h => simp [plainSize, fileContent]
  | cons b rest h hne hr ih =>
    have hlen : 1 ≤ rest.length := List.length_pos.mpr hne
    obtain ⟨m, hm⟩ : ∃ m, rest.length = m + 1 :=
      ⟨rest.length - 1, by omega⟩
    simp only [plainSize, fileContent_cons, List.length_append,
      List.length_cons, hm, Nat.add_sub_cancel] at ih ⊢
    rw [Nat.succ_mul]
    omega

/-- Dropping `k` blocks of a well-formed file drops `k * PlainBS` bytes of
its content. -/
lemma fileContent_drop (file : List CtBlock) (hw : WfBlocks file) :
    ∀ k, fileContent (file.drop k) =
      (fileContent file).drop (k * gocryptfs.PlainBS) := by
  induction hw with
  | nil => intro k; simp [fileContent]
  | last b h =>
    intro k
    cases k with
    | zero => simp
    | succ n =>
      have h2 : b.payload.length ≤ (n + 1) * gocryptfs.PlainBS :=
        le_trans h (Nat.le_mul_of_pos_left _ (Nat.succ_pos n))
      rw [List.drop_eq_nil_of_le (by simp), List.drop_eq_nil_of_le]
      · rfl
      · simpa [fileContent] using h2
  | cons b rest h hne hr ih =>
    intro k
    cases k with
    | zero => simp
    | succ n =>
      have hdropc : (b :: rest).drop (n + 1) = rest.drop n := rfl
      have hple : b.payload.length ≤ (n + 1) * gocryptfs.PlainBS := by
        rw [h]
        exact Nat.le_mul_of_pos_left _ (Nat.succ_pos n)
      have hsub : (n + 1) * gocryptfs.PlainBS - gocryptfs.PlainBS =
          n * gocryptfs.PlainBS := by
        rw [Nat.succ_mul, Nat.add_sub_cancel]
      rw [hdropc, ih n, fileContent_cons,
        List.drop_append_eq_append_drop,
        List.drop_eq_nil_of_le hple, List.nil_append, h, hsub]

/-- The content of a block-prefix is no longer than the whole content. -/
lemma fileContent_take_length_le (l : List CtBlock) (n : Nat) :
    (fileContent (l.take n)).length ≤ (fileContent l).length := by
  conv_rhs => rw [← List.take_append_drop n l]
  rw [fileContent_append, List.length_append]
  exact Nat.le_add_right _ _

/-- When every covered block authenticates, `doRead` reduces to the crop
of the decrypted plaintext. -/
lemma doRead_of_all_good (file : List CtBlock) (off length : Nat)
    (h : ∀ b ∈ coveredBlocks file off length, b.good = true) :
    doRead file off length =
      if (fileContent (coveredBlocks file off length)).length >
          off % gocryptfs.PlainBS + length then
        (((fileContent (coveredBlocks file off length)).drop
            (off % gocryptfs.PlainBS)).take length, .ok)
      else if (fileContent (coveredBlocks file off length)).length >
          off % gocryptfs.PlainBS then
        ((fileContent (coveredBlocks file off length)).drop
          (off % gocryptfs.PlainBS), .ok)
      else ([], .ok) := by
  unfold doRead
  rw [decryptBlocks_all_good _ h]
  rfl

end pathfs

/-- C7: for a well-formed, fully authentic backing file of plaintext size
`S`, a read of `len` bytes at plaintext offset `off` returns an empty
result with OK status when `off ≥ S` (not an error), and returns exactly
the bytes in `[off, S)` with OK status when `off < S < off + len` (a read
straddling the end of the file is not padded past it). -/
theorem doRead_eof_spec (file : List pathfs.CtBlock) (off len : Nat)
    (hw : pathfs.WfBlocks file)
    (hgood : ∀ b ∈ file, b.good = true) :
    (pathfs.plainSize file ≤ off →
      pathfs.doRead file off len = ([], .ok)) ∧
    (off < pathfs.plainSize file → pathfs.plainSize file < off + len →
      pathfs.doRead file off len =
        ((pathfs.fileContent file).drop off, .ok)) := by
  have hgoodCov :
      ∀ b ∈ pathfs.coveredBlocks file off len, b.good = true := by
    intro b hb
    simp only [pathfs.coveredBlocks] at hb
    exact hgood b (List.mem_of_mem_drop (List.mem_of_mem_take hb))
  have hS : pathfs.plainSize file = (pathfs.fileContent file).length :=
    rfl
  rw [pathfs.doRead_of_all_good file off len hgoodCov]
  constructor
  · intro hoff
    rw [hS] at hoff
    have h1 : (pathfs.fileContent
        (pathfs.coveredBlocks file off len)).length ≤
        (pathfs.fileContent
          (file.drop (off / gocryptfs.PlainBS))).length := by
      simp only [pathfs.coveredBlocks]
      exact pathfs.fileContent_take_length_le _ _
    rw [pathfs.fileContent_drop file hw, List.length_drop] at h1
    simp only [gocryptfs.PlainBS] at h1 ⊢
    rw [if_neg (by omega), if_neg (by omega)]
  · intro h1off h2off
    rw [hS] at h1off h2off
    have hcov : pathfs.coveredBlocks file off len =
        file.drop (off / gocryptfs.PlainBS) := by
      have hS2 : (file.length - 1) * gocryptfs.PlainBS ≤
          pathfs.plainSize file := pathfs.length_pred_mul_le file hw
      rw [hS] at hS2
      simp only [pathfs.coveredBlocks]
      apply List.take_of_length_le
      rw [List.length_drop]
      simp only [gocryptfs.PlainBS] at hS2 ⊢
      omega
    have hcontent : pathfs.fileContent
        (pathfs.coveredBlocks file off len) =
        (pathfs.fileContent file).drop
          (off / gocryptfs.PlainBS * gocryptfs.PlainBS) := by
      rw [hcov]
      exact pathfs.fileContent_drop file hw _
    rw [hcontent, List.length_drop, List.drop_drop]
    simp only [gocryptfs.PlainBS] at h1off h2off ⊢
    rw [if_neg (by omega), if_pos (by omega)]
    congr 2
    omega

/-- Witness for C7: reading 10 bytes at offset 3 of a 5-byte one-block
file returns exactly the last two bytes with OK status. -/
theorem doRead_eof_spec_witness :
    pathfs.doRead [⟨[9, 9, 9, 9, 9], true⟩] 3 10 = ([9, 9], .ok) :=
  (doRead_eof_spec [⟨[9, 9, 9, 9, 9], true⟩] 3 10
    (pathfs.WfBlocks.last _ (by decide)) (by decide)).2 (by decide)
    (by decide)

namespace fusefrontend

/-- Clearing a slot does not change which descriptor the kernel hands out
next. -/
lemma clear_table_next (e : dirCacheEntryStruct) (t : FdTable) :
    (e.Clear t).2.1.next = t.next := by
  unfold dirCacheEntryStruct.Clear FdTable.close
  split <;> rfl

/-- Clearing a slot does not touch descriptors other than the slot's. -/
lemma clear_table_ino (e : dirCacheEntryStruct) (t : FdTable) (fd : Int)
    (hne : e.fd ≠ fd) : (e.Clear t).2.1.ino fd = t.ino fd := by
  unfold dirCacheEntryStruct.Clear FdTable.close
  split
  · exact if_neg (fun hh => hne hh.symm)
  · rfl

/-- Closing a descriptor preserves table well-formedness. -/
lemma wf_close (t : FdTable) (fd : Int) (h : t.Wf) : (t.close fd).Wf := by
  refine ⟨fun g hg => ?_, h.2⟩
  unfold FdTable.close
  simp only
  split
  · rfl
  · exact h.1 g hg

/-- Duplicating a descriptor preserves table well-formedness. -/
lemma wf_dup (t : FdTable) (fd : Int) (h : t.Wf) : (t.dup fd).2.Wf := by
  refine ⟨fun g hg => ?_, by have := h.2; unfold FdTable.dup; simp only; omega⟩
  unfold FdTable.dup at hg ⊢
  simp only at hg ⊢
  rw [if_neg (by omega)]
  exact h.1 g (by omega)

/-- Clearing a slot preserves table well-formedness. -/
lemma wf_clear_table (e : dirCacheEntryStruct) (t : FdTable) (h : t.Wf) :
    (e.Clear t).2.1.Wf := by
  unfold dirCacheEntryStruct.Clear
  split
  · exact wf_close t e.fd h
  · exact h

/-- The value `Store` computes when the sanity check passes. -/
lemma store_eq (d : dirCacheStruct) (t : FdTable) (p : String) (fd : Int)
    (iv : List Nat)
    (hc : ¬(fd ≤ 0 ∨ iv.length ≠ nametransform.DirIVLen)) :
    d.Store t p fd iv = some
      (⟨d.entries.set d.nextIndex
          ⟨p, ((d.entries.getD d.nextIndex zeroEntry).Clear t).2.1.next,
            iv⟩,
        (d.nextIndex + 1) % dirCacheSize⟩,
       (((d.entries.getD d.nextIndex zeroEntry).Clear t).2.1.dup fd).2) := by
  unfold dirCacheStruct.Store
  rw [if_neg hc]
  rfl

/-- Scanning a slot list in which no live slot matches `p`, after slot `i`
was overwritten with a live matching entry, finds exactly that entry. -/
lemma findHit_set (l : List dirCacheEntryStruct) (p : String)
    (hno : ∀ x ∈ l, ¬(x.fd > 0 ∧ x.dirRelPath = p)) :
    ∀ (i : Nat) (e : dirCacheEntryStruct), i < l.length →
      e.fd > 0 ∧ e.dirRelPath = p → findHit (l.set i e) p = some e := by
  induction l with
  | nil => intro i e hi _; exact absurd hi (by simp)
  | cons a rest ih =>
    intro i e hi he
    cases i with
    | zero =>
      simp only [List.set, findHit, if_pos he]
    | succ n =>
      have ha := hno a (List.mem_cons_self a rest)
      simp only [List.set, findHit, if_neg ha]
      exact ih (fun x hx => hno x (List.mem_cons_of_mem a hx)) n e
        (by simpa using hi) he

/-- The value `Lookup` computes on a hit slot, when the kernel hands out
descriptors at 3 or above. -/
lemma lookup_hit_eq (d : dirCacheStruct) (t : FdTable) (p : String)
    (e : dirCacheEntryStruct) (hfind : findHit d.entries p = some e)
    (hnext : 3 ≤ t.next)
    (hlen : e.iv.length = nametransform.DirIVLen) :
    d.Lookup t p = some ((t.next, e.iv), (t.dup e.fd).2) := by
  have hstep : d.Lookup t p =
      if t.next = 0 then some ((-1, []), (t.dup e.fd).2)
      else if t.next ≤ 0 ∨ e.iv.length ≠ nametransform.DirIVLen then none
      else some ((t.next, e.iv), (t.dup e.fd).2) := by
    unfold dirCacheStruct.Lookup
    rw [hfind]
    rfl
  rw [hstep, if_neg (by omega), if_neg (by rw [hlen]; simp; omega)]

end fusefrontend

namespace fusefrontend

/-- Scanning a slot list in which no live slot matches `q` misses. -/
lemma findHit_none (l : List dirCacheEntryStruct) (q : String)
    (hq : ∀ x ∈ l, ¬(x.fd > 0 ∧ x.dirRelPath = q)) :
    findHit l q = none := by
  induction l with
  | nil => rfl
  | cons a rest ih =>
    simp only [findHit, if_neg (hq a (List.mem_cons_self a rest))]
    exact ih (fun x hx => hq x (List.mem_cons_of_mem a hx))

end fusefrontend

/-- Counterexample for C4: store path "a" with fd 3 (inode 100) and IV
`replicate 16 1`, then store "a" again with fd 4 (inode 200) and IV
`replicate 16 2` — no Clear and no eviction of the second entry happens —
and look up "a". The hit returns the first slot in scan order: descriptor
7, which refers to inode 100 (not 200, the inode of fd 4), carrying IV
`replicate 16 1` (not the IV `replicate 16 2` stored with fd 4). -/
theorem dirCache_lookup_counterexample :
    (fusefrontend.doubleStoreRun.map fun r => r.1) =
      some (7, List.replicate 16 1) ∧
    (fusefrontend.doubleStoreRun.bind fun r => r.2.ino 7) = some 100 ∧
    List.replicate (16 : Nat) (1 : Nat) ≠ List.replicate 16 2 ∧
    (100 : Nat) ≠ 200 := by
  refine ⟨rfl, rfl, by decide, by decide⟩

/-- C4 (amended): if the path is not already held in any live cache slot,
then a `Lookup(p)` after `Store(p, fd, iv)` (with a valid fd and 16-byte
IV, and before any Clear or eviction) hits and returns the stored IV
together with a freshly duplicated descriptor — unused before the lookup —
that refers to the same inode as `fd`; in general a hit returns the first
matching slot in scan order, and a lookup of a path held in no live slot
returns the miss sentinel `(-1, nil)` (see `dirCache_lookup_miss` inside
the conjunction). -/
theorem store_then_lookup_hit (d : fusefrontend.dirCacheStruct)
    (t : fusefrontend.FdTable) (p : String) (fd : Int) (iv : List Nat)
    (n : Nat) (hwf : t.Wf) (hino : t.ino fd = some n)
    (hnotin : ∀ e ∈ d.entries, ¬(e.fd > 0 ∧ e.dirRelPath = p))
    (hidx : d.nextIndex < d.entries.length)
    (hevict :
      (d.entries.getD d.nextIndex fusefrontend.zeroEntry).fd ≠ fd)
    (hfd : 0 < fd) (hlen : iv.length = nametransform.DirIVLen) :
    (∀ q : String, (∀ e ∈ d.entries, ¬(e.fd > 0 ∧ e.dirRelPath = q)) →
      d.Lookup t q = some ((-1, []), t)) ∧
    ∃ d' t' fd' t'',
      d.Store t p fd iv = some (d', t') ∧
      d'.Lookup t' p = some ((fd', iv), t'') ∧
      t.ino fd' = none ∧ t''.ino fd' = some n ∧ 3 ≤ fd' := by
  constructor
  · intro q hq
    have hfind : fusefrontend.findHit d.entries q = none :=
      fusefrontend.findHit_none d.entries q hq
    unfold fusefrontend.dirCacheStruct.Lookup
    rw [hfind]
  · have hc : ¬(fd ≤ 0 ∨ iv.length ≠ nametransform.DirIVLen) := by
      push_neg
      exact ⟨hfd, hlen⟩
    have hstore := fusefrontend.store_eq d t p fd iv hc
    set t1 :=
      ((d.entries.getD d.nextIndex fusefrontend.zeroEntry).Clear t).2.1
      with ht1
    have hnext1 : t1.next = t.next := fusefrontend.clear_table_next _ _
    have hino1 : t1.ino fd = some n := by
      rw [ht1, fusefrontend.clear_table_ino _ _ _ hevict]
      exact hino
    have h3 : 3 ≤ t1.next := by rw [hnext1]; exact hwf.2
    have hfind := fusefrontend.findHit_set d.entries p hnotin
      d.nextIndex ⟨p, t1.next, iv⟩ hidx ⟨by show 0 < t1.next; omega, rfl⟩
    refine ⟨_, _, t1.next + 1, ((t1.dup fd).2.dup t1.next).2, hstore,
      ?_, ?_, ?_, ?_⟩
    · have hlook := fusefrontend.lookup_hit_eq
        ⟨d.entries.set d.nextIndex ⟨p, t1.next, iv⟩,
          (d.nextIndex + 1) % fusefrontend.dirCacheSize⟩
        (t1.dup fd).2 p ⟨p, t1.next, iv⟩ hfind (by
          show 3 ≤ t1.next + 1
          omega) hlen
      exact hlook
    · rw [hnext1]
      exact hwf.1 _ (by omega)
    · show ((t1.dup fd).2.dup t1.next).2.ino (t1.next + 1) = some n
      unfold fusefrontend.FdTable.dup
      simp only [if_true]
      exact hino1
    · omega

/-- Witness for C4 (amended): an empty cache, a table where descriptor 3
refers to inode 100 and the kernel hands out descriptors from 4; after
storing ("a", 3, replicate 16 1), looking up "a" yields the stored IV on
a fresh descriptor with inode 100. -/
theorem store_then_lookup_hit_witness :
    (∀ q : String,
      (∀ e ∈ (⟨List.replicate 3 fusefrontend.zeroEntry, 0⟩ :
          fusefrontend.dirCacheStruct).entries,
        ¬(e.fd > 0 ∧ e.dirRelPath = q)) →
      fusefrontend.dirCacheStruct.Lookup
        ⟨List.replicate 3 fusefrontend.zeroEntry, 0⟩
        ⟨fun g => if g = 3 then some 100 else none, 4⟩ q =
        some ((-1, []),
          ⟨fun g => if g = 3 then some 100 else none, 4⟩)) ∧
    ∃ d' t' fd' t'',
      fusefrontend.dirCacheStruct.Store
        ⟨List.replicate 3 fusefrontend.zeroEntry, 0⟩
        ⟨fun g => if g = 3 then some 100 else none, 4⟩
        "a" 3 (List.replicate 16 1) = some (d', t') ∧
      d'.Lookup t' "a" = some ((fd', List.replicate 16 1), t'') ∧
      (⟨fun g => if g = 3 then some 100 else none, 4⟩ :
        fusefrontend.FdTable).ino fd' = none ∧
      t''.ino fd' = some 100 ∧ 3 ≤ fd' :=
  store_then_lookup_hit ⟨List.replicate 3 fusefrontend.zeroEntry, 0⟩
    ⟨fun g => if g = 3 then some 100 else none, 4⟩ "a" 3
    (List.replicate 16 1) 100
    ⟨fun g hg => by
      have hg4 : (4 : Int) ≤ g := hg
      show (if g = (3 : Int) then some (100 : Nat) else none) = none
      rw [if_neg (by omega)], by decide⟩
    (by simp) (by decide) (by decide) (by decide) (by decide) (by decide)

/-- Counterexample for C5: storing descriptor 2 (one of the standard
descriptors 0, 1, 2) with a valid 16-byte IV is not treated as a fatal
invariant violation: `Store`'s sanity check only aborts for `fd <= 0`, so
the call proceeds (`isSome`) instead of panicking. -/
theorem store_fd2_counterexample :
    (fusefrontend.dirCacheStruct.Store
        ⟨List.replicate 3 fusefrontend.zeroEntry, 0⟩
        ⟨fun g => if g = 2 then some 5 else none, 3⟩
        "p" 2 (List.replicate 16 1)).isSome = true ∧
    ((2 : Int) = 0 ∨ (2 : Int) = 1 ∨ (2 : Int) = 2) := by
  exact ⟨rfl, by decide⟩

/-- C5 (amended): the cache's own fatal checks abort exactly when
`fd ≤ 0` or the IV is not 16 bytes (`Store = none` iff that condition),
so storing descriptor 1 or 2 is not itself checked; under the process
guarantee that `Dup` hands out descriptors ≥ 3 (`FdTable.Wf`, provided by
ensurefds012), every live cache slot holds a descriptor ≥ 3 with a
16-byte IV (`SlotsOk` is preserved by `Store`), and a `Lookup` returns
either the miss sentinel -1 or a descriptor ≥ 3 — never 0, 1 or 2. -/
theorem store_lookup_sanity_spec (d : fusefrontend.dirCacheStruct)
    (t : fusefrontend.FdTable) (p : String) (fd : Int)
    (iv : List Nat) :
    (d.Store t p fd iv = none ↔
      fd ≤ 0 ∨ iv.length ≠ nametransform.DirIVLen) ∧
    (t.Wf → fusefrontend.SlotsOk d → ∀ d' t',
      d.Store t p fd iv = some (d', t') →
      fusefrontend.SlotsOk d' ∧ t'.Wf) ∧
    (t.Wf → ∀ fd' iv' t', d.Lookup t p = some ((fd', iv'), t') →
      fd' = -1 ∨ 3 ≤ fd') := by
  refine ⟨⟨?_, ?_⟩, ?_, ?_⟩
  · intro h
    by_contra hcond
    rw [fusefrontend.store_eq d t p fd iv hcond] at h
    cases h
  · intro h
    unfold fusefrontend.dirCacheStruct.Store
    rw [if_pos h]
  · intro hwft hslots d' t' hsome
    have hcond : ¬(fd ≤ 0 ∨ iv.length ≠ nametransform.DirIVLen) := by
      intro hcond
      have hnone : d.Store t p fd iv = none := by
        unfold fusefrontend.dirCacheStruct.Store
        rw [if_pos hcond]
      rw [hnone] at hsome
      cases hsome
    rw [fusefrontend.store_eq d t p fd iv hcond] at hsome
    cases hsome
    constructor
    · intro e he
      rcases List.mem_or_eq_of_mem_set he with he' | rfl
      · exact hslots e he'
      · right
        refine ⟨?_, ?_⟩
        · show 3 ≤
            ((d.entries.getD d.nextIndex
              fusefrontend.zeroEntry).Clear t).2.1.next
          rw [fusefrontend.clear_table_next]
          exact hwft.2
        · show iv.length = nametransform.DirIVLen
          by_contra hh
          exact hcond (Or.inr hh)
    · exact fusefrontend.wf_dup _ fd
        (fusefrontend.wf_clear_table _ t hwft)
  · intro hwft fd' iv' t' hsome
    have h3 := hwft.2
    unfold fusefrontend.dirCacheStruct.Lookup at hsome
    cases hfind : fusefrontend.findHit d.entries p with
    | none =>
      rw [hfind] at hsome
      have hinj := Option.some.inj hsome
      left
      exact (congrArg (fun x => x.1.1) hinj).symm
    | some e =>
      rw [hfind] at hsome
      have hsome2 : (if t.next = 0 then
            some (((-1 : Int), ([] : List Nat)), (t.dup e.fd).2)
          else if t.next ≤ 0 ∨
              e.iv.length ≠ nametransform.DirIVLen then none
          else some ((t.next, e.iv), (t.dup e.fd).2)) =
          some ((fd', iv'), t') := hsome
      rw [if_neg (by omega : ¬t.next = 0)] at hsome2
      by_cases hbad : t.next ≤ 0 ∨ e.iv.length ≠ nametransform.DirIVLen
      · rw [if_pos hbad] at hsome2
        cases hsome2
      · rw [if_neg hbad] at hsome2
        have hinj := Option.some.inj hsome2
        right
        have hfd' : t.next = fd' := congrArg (fun x => x.1.1) hinj
        rw [← hfd']
        exact h3

/-- Witness for C5 (amended): storing the invalid descriptor 0 aborts. -/
theorem store_lookup_sanity_spec_witness :
    fusefrontend.dirCacheStruct.Store
      ⟨List.replicate 3 fusefrontend.zeroEntry, 0⟩
      ⟨fun _ => none, 3⟩ "p" 0 (List.replicate 16 1) = none :=
  (store_lookup_sanity_spec
    ⟨List.replicate 3 fusefrontend.zeroEntry, 0⟩
    ⟨fun _ => none, 3⟩ "p" 0 (List.replicate 16 1)).1.mpr
    (Or.inl (by decide))
